import Mathlib

/-!
Verification of `bloom.c` (kanhavishva/bloom), a single-file Bloom filter
library, against its natural-language specification.

The C code is shallowly embedded:

* the `BloomFilter` struct becomes a Lean structure; the two pointer fields
  (`bloom`, `hash_function`) are `Option`s, `none` standing for NULL;
* C functions that receive a `BloomFilter *` and return an `int` status are
  embedded as functions returning the (possibly updated) structure together
  with the status;
* `uint64_t` / `int` / `unsigned` arithmetic is carried out on `Nat` / `Int`
  with the wrap-arounds written out explicitly where they matter
  (`toInt32` below); `float` / `double` arithmetic is idealised as real
  arithmetic, which is the usual reading of the numerical formulas in the
  spec;
* the MD5 digest primitive comes from OpenSSL, outside this repository; it is
  passed in as a parameter `MD5 : List ℕ → List ℕ` (a 16-byte digest);
* file I/O is modelled by a byte list: `fopen` failure becomes a `Bool` /
  `Option` at the interface.
-/

namespace Bloom

/-- Modelled from the spec: the status codes come from `bloom.h`, which is not
among the repository's source files; the spec requires exactly two outcomes,
Success and Failure, and `bloom.c` returns `BLOOM_SUCCESS` / `BLOOM_FAILURE`.
Only their distinctness matters below. -/
def BLOOM_SUCCESS : ℤ := 0

/-- Modelled from the spec: the failure status code from `bloom.h`
(see `BLOOM_SUCCESS`). -/
def BLOOM_FAILURE : ℤ := -1

/-- The type of the pluggable hash strategy:
`(count, modulus, item) ↦ list of count indices`
(`uint64_t* (*)(int, uint64_t, char*)` in C; the returned array is a list). -/
abbrev HashFunction : Type := ℕ → ℕ → String → List ℕ

/-- Modelled from the spec and from the field accesses in `bloom.c`: the
`BloomFilter` struct of `bloom.h`.  `bloom` is the packed byte array
(`char *`, each entry a byte value), `bloom_length` its length in bytes
(the spec's `bit_store_length`); `none` models a NULL pointer. -/
@[ext]
structure BloomFilter where
  estimated_elements : ℕ
  false_positive_probability : ℝ
  number_hashes : ℕ
  number_bits : ℕ
  bloom_length : ℕ
  bloom : Option (List ℕ)
  elements_added : ℕ
  hash_function : Option HashFunction

/-- C macro `set_bit(A,k)`: `A[k/8] |= (1 << (k % 8))`.  An out-of-range `k`
is undefined behaviour in C; here `List.set` leaves the list unchanged. -/
def set_bit (A : List ℕ) (k : ℕ) : List ℕ :=
  A.set (k / 8) (A.getD (k / 8) 0 ||| 1 <<< (k % 8))

/-- C macro `check_bit(A,k)`: `A[k/8] & (1 << (k % 8))`.  An out-of-range `k`
is undefined behaviour in C; here the missing byte reads as `0`. -/
def check_bit (A : List ℕ) (k : ℕ) : ℕ :=
  A.getD (k / 8) 0 &&& 1 <<< (k % 8)

/-- Calling a NULL `hash_function` crashes in C; the model totalises the
dereference with this stand-in.  No theorem below depends on its value. -/
def nullHash : HashFunction := fun _ _ _ => []

/-- The bytes of a C string as fed to `MD5_Update(ctx, str, strlen(str))`. -/
def strBytes (s : String) : List ℕ := s.toUTF8.toList.map (fun b => b.toNat)

/-- Value of a little-endian byte list (least significant byte first). -/
def leValue : List ℕ → ℕ
  | [] => 0
  | b :: rest => b + 256 * leValue rest

/-- The C code reads the first eight digest bytes as one number,
`*(uint64_t *)digest`, little-endian on the target architecture. -/
def first8LE (digest : List ℕ) : ℕ := leValue (digest.take 8)

/-- The 8 little-endian bytes of a `uint64_t` value, as laid out by
`fwrite(&x, sizeof(uint64_t), 1, fp)`. -/
def u64Bytes (x : ℕ) : List ℕ := (List.range 8).map (fun i => x / 256 ^ i % 256)

/-- The digest chain of `md5_hash_default`: step 0 digests the string's bytes,
step `i+1` digests the 16 raw digest bytes of step `i`. -/
def digestChain (MD5 : List ℕ → List ℕ) (str : String) : ℕ → List ℕ
  | 0 => MD5 (strBytes str)
  | i + 1 => MD5 (digestChain MD5 str i)

/-- `md5_hash_default(num_hashes, num_bits, str)`: `results[i]` is the first
eight bytes of the i-th chained digest, reduced `% num_bits`. -/
def md5_hash_default (MD5 : List ℕ → List ℕ) : HashFunction :=
  fun num_hashes num_bits str =>
    (List.range num_hashes).map
      (fun i => first8LE (digestChain MD5 str i) % num_bits)

/-- `bloom_filter_set_hash_function`: a NULL argument rebinds the default
adapter, otherwise the given function is bound. -/
def bloom_filter_set_hash_function (MD5 : List ℕ → List ℕ) (bf : BloomFilter)
    (hf : Option HashFunction) : BloomFilter :=
  { bf with hash_function := some (hf.getD (md5_hash_default MD5)) }

/-- C constant `LOG_TWO_SQUARED = 0.4804530139182`, the code's 13-digit
decimal approximation of `(ln 2)²` (the code comments it `AKA pow(log(2), 2)`). -/
def LOG_TWO_SQUARED : ℝ := 0.4804530139182

/-- `calculate_optimal_hashes`: `m = ceil(-n * log(p) / LOG_TWO_SQUARED)`,
`k = round(log(2) * m / n)`, `bloom_length = ceil(m / 8)`.  C `double`
arithmetic is idealised over ℝ; `ceil`/`round` are the C library functions
(`round` rounds half away from zero, which on the nonnegative values that
occur here agrees with Mathlib's `round`); the back-casts of the nonnegative
results to `uint64_t`/`unsigned` are `Nat.ceil` / `Int.toNat`.  Returns
`(number_bits, number_hashes, bloom_length)`. -/
noncomputable def calculate_optimal_hashes (estimated_elements : ℕ)
    (false_positive_probability : ℝ) : ℕ × ℕ × ℕ :=
  let n : ℕ := estimated_elements
  let p : ℝ := false_positive_probability
  let m : ℕ := ⌈-(n : ℝ) * Real.log p / LOG_TWO_SQUARED⌉₊
  let k : ℕ := (round (Real.log 2 * (m : ℝ) / (n : ℝ))).toNat
  (m, k, ⌈(m : ℝ) / 8⌉₊)

/-- `bloom_filter_init`: validates the inputs (`estimated_elements <= 0` on a
`uint64_t` means `= 0`; the C comparison `> UINT64_MAX` is always false),
derives the sizing, zero-allocates the bit store and binds the hash strategy.
`none` is the `BLOOM_FAILURE` early return, which leaves no usable filter. -/
noncomputable def bloom_filter_init (MD5 : List ℕ → List ℕ)
    (estimated_elements : ℕ) (false_positive_rate : ℝ)
    (hash_function : Option HashFunction) : Option BloomFilter :=
  if estimated_elements = 0 then none
  else if false_positive_rate ≤ 0 ∨ 1 ≤ false_positive_rate then none
  else
    let mkl := calculate_optimal_hashes estimated_elements false_positive_rate
    some (bloom_filter_set_hash_function MD5
      { estimated_elements := estimated_elements
        false_positive_probability := false_positive_rate
        number_hashes := mkl.2.1
        number_bits := mkl.1
        bloom_length := mkl.2.2
        bloom := some (List.replicate mkl.2.2 0)
        elements_added := 0
        hash_function := none } hash_function)

/-- `bloom_filter_destroy`: frees the bit array, NULLs both pointers and
zeroes the scalar fields it touches.  Note the C code does not reset
`bloom_length`; the structure update faithfully keeps it. -/
def bloom_filter_destroy (bf : BloomFilter) : BloomFilter × ℤ :=
  ({ bf with
      bloom := none
      elements_added := 0
      estimated_elements := 0
      false_positive_probability := 0
      number_hashes := 0
      number_bits := 0
      hash_function := none }, BLOOM_SUCCESS)

/-- Dereference of `bf->bloom` (a NULL dereference is undefined behaviour in
C; the model reads an empty array, and every theorem below that relies on the
contents works with a live, `some`, bit store). -/
def liveBits (bf : BloomFilter) : List ℕ := bf.bloom.getD []

/-- The call `bf->hash_function(bf->number_hashes, bf->number_bits, str)`. -/
def bloomHashes (bf : BloomFilter) (str : String) : List ℕ :=
  (bf.hash_function.getD nullHash) bf.number_hashes bf.number_bits str

/-- `bloom_filter_add_string`: sets the bit at each of the `number_hashes`
hash indices, frees the hash array, increments `elements_added`, returns
`BLOOM_SUCCESS`. -/
def bloom_filter_add_string (bf : BloomFilter) (str : String) :
    BloomFilter × ℤ :=
  let hashes := bloomHashes bf str
  let newBits := (List.range bf.number_hashes).foldl
    (fun A i => set_bit A (hashes.getD i 0)) (liveBits bf)
  ({ bf with bloom := some newBits, elements_added := bf.elements_added + 1 },
    BLOOM_SUCCESS)

/-- `bloom_filter_check_string`: recomputes the hash indices and returns
`BLOOM_SUCCESS` iff every corresponding bit is set (the C loop breaks at the
first unset bit, which computes the same answer).  The struct is returned
unchanged: the C body assigns no field of `*bf`. -/
def bloom_filter_check_string (bf : BloomFilter) (str : String) :
    BloomFilter × ℤ :=
  let hashes := bloomHashes bf str
  (bf,
    if (List.range bf.number_hashes).all
        (fun i => check_bit (liveBits bf) (hashes.getD i 0) != 0)
    then BLOOM_SUCCESS else BLOOM_FAILURE)

/-- Two's-complement truncation to a 32-bit signed `int`: the value stored by
`int num = ...;` when the right-hand side is out of range (gcc/x86
semantics: keep the low 32 bits). -/
def toInt32 (x : ℤ) : ℤ := (x + 2 ^ 31) % 2 ^ 32 - 2 ^ 31

/-- `bloom_filter_current_false_positive_rate`:
`int num = bf->number_hashes * -1 * bf->elements_added;` — the modular
products followed by the store into a 32-bit `int` compute exactly
`toInt32 (-(number_hashes * elements_added))`; then
`pow(1 - exp(num / number_bits), number_hashes)`, doubles read over ℝ. -/
noncomputable def bloom_filter_current_false_positive_rate
    (bf : BloomFilter) : ℝ :=
  let num : ℤ :=
    toInt32 (-((bf.number_hashes : ℤ) * (bf.elements_added : ℤ)))
  (1 - Real.exp ((num : ℝ) / (bf.number_bits : ℝ))) ^ bf.number_hashes

/-- `bloom_filter_export`: the written file as a byte list (`none` when
nothing was written) together with the status.  `canOpen` models whether
`fopen(filepath, "wb")` succeeds; `f32enc` models the 4 raw bytes of the IEEE
`float` field written by `fwrite(&bf->false_positive_probability, ...)`
(an exact bit copy of the field). -/
def bloom_filter_export (f32enc : ℝ → List ℕ) (bf : BloomFilter)
    (canOpen : Bool) : Option (List ℕ) × ℤ :=
  if canOpen then
    (some (u64Bytes bf.estimated_elements ++ u64Bytes bf.elements_added ++
      f32enc bf.false_positive_probability ++
      (liveBits bf).take bf.bloom_length), BLOOM_SUCCESS)
  else (none, BLOOM_FAILURE)

/-- `bloom_filter_import`: `none` for the `fopen` failure; otherwise reads the
three header fields at offsets 0, 8, 16, re-derives the sizing with
`calculate_optimal_hashes`, callocs `bloom_length` zero bytes and `fread`s up
to that many bytes into them (a short file leaves the zero tail, exactly as
unchecked `fread` into `calloc` memory does), and binds the hash strategy.
`f32dec` is the value of the 4 float-field bytes read back (exact bit copy). -/
noncomputable def bloom_filter_import (MD5 : List ℕ → List ℕ)
    (f32dec : List ℕ → ℝ) (file : Option (List ℕ))
    (hf : Option HashFunction) : Option BloomFilter :=
  match file with
  | none => none
  | some data =>
    let n := leValue (data.take 8)
    let ea := leValue ((data.drop 8).take 8)
    let p := f32dec ((data.drop 16).take 4)
    let mkl := calculate_optimal_hashes n p
    some (bloom_filter_set_hash_function MD5
      { estimated_elements := n
        false_positive_probability := p
        number_hashes := mkl.2.1
        number_bits := mkl.1
        bloom_length := mkl.2.2
        bloom := some ((data.drop 20).take mkl.2.2 ++
          List.replicate (mkl.2.2 - ((data.drop 20).take mkl.2.2).length) 0)
        elements_added := ea
        hash_function := none } hf)

/-- A sequence of `bloom_filter_add_string` calls. -/
def insertList (bf : BloomFilter) (items : List String) : BloomFilter :=
  items.foldl (fun b s => (bloom_filter_add_string b s).1) bf

/-- Number of set bits of a bit store, counted through the `check_bit`
macro: each bit position `k < 8 * length` is looked at once. -/
def countSetBits (A : List ℕ) : ℕ :=
  (List.range (8 * A.length)).countP (fun k => check_bit A k != 0)

/-! ### Bit-store lemmas -/

theorem and_two_pow_ne_zero_iff (x s : ℕ) :
    x &&& 2 ^ s ≠ 0 ↔ x.testBit s = true := by
  constructor
  · intro h
    by_contra hb
    apply h
    apply Nat.eq_of_testBit_eq
    intro j
    simp only [Nat.testBit_and, Nat.testBit_two_pow, Nat.zero_testBit]
    rcases eq_or_ne s j with rfl | hj
    · simp [Bool.eq_false_iff.mpr hb]
    · simp [hj]
  · intro h hzero
    have ht : (x &&& 2 ^ s).testBit s = true := by
      simp [Nat.testBit_and, Nat.testBit_two_pow, h]
    rw [hzero] at ht
    simp at ht

theorem check_bit_ne_zero_iff (A : List ℕ) (k : ℕ) :
    check_bit A k ≠ 0 ↔ (A.getD (k / 8) 0).testBit (k % 8) = true := by
  unfold check_bit
  rw [Nat.shiftLeft_eq, one_mul]
  exact and_two_pow_ne_zero_iff _ _

theorem length_set_bit (A : List ℕ) (k : ℕ) :
    (set_bit A k).length = A.length := by
  simp [set_bit]

theorem getD_set_bit (A : List ℕ) (j n : ℕ) :
    (set_bit A j).getD n 0 =
      if j / 8 = n ∧ j / 8 < A.length
      then A.getD (j / 8) 0 ||| 1 <<< (j % 8)
      else A.getD n 0 := by
  unfold set_bit
  simp only [List.getD_eq_getElem?_getD, List.getElem?_set]
  rcases eq_or_ne (j / 8) n with rfl | hne
  · by_cases hlt : j / 8 < A.length
    · simp [hlt]
    · have : A[j / 8]? = none := by
        rw [List.getElem?_eq_none]
        omega
      simp [hlt, this]
  · simp [hne]

theorem check_bit_set_bit_mono (A : List ℕ) (j k : ℕ)
    (h : check_bit A k ≠ 0) : check_bit (set_bit A j) k ≠ 0 := by
  rw [check_bit_ne_zero_iff] at h ⊢
  rw [getD_set_bit]
  split
  · next hcase =>
    rw [← hcase.1] at h
    rw [Nat.shiftLeft_eq, one_mul]
    simp only [Nat.testBit_or, List.getD_eq_getElem?_getD] at h ⊢
    simp [h]
  · exact h

theorem check_bit_set_bit_self (A : List ℕ) (k : ℕ) (hk : k / 8 < A.length) :
    check_bit (set_bit A k) k ≠ 0 := by
  rw [check_bit_ne_zero_iff, getD_set_bit]
  simp only [hk, and_true, if_pos rfl]
  rw [Nat.shiftLeft_eq, one_mul]
  simp [Nat.testBit_or, Nat.testBit_two_pow_self]

theorem foldl_set_bit_length (ks : List ℕ) (A : List ℕ) :
    (ks.foldl set_bit A).length = A.length := by
  induction ks generalizing A with
  | nil => rfl
  | cons j rest ih => rw [List.foldl_cons, ih, length_set_bit]

theorem foldl_set_bit_mono (ks : List ℕ) (A : List ℕ) (k : ℕ)
    (h : check_bit A k ≠ 0) : check_bit (ks.foldl set_bit A) k ≠ 0 := by
  induction ks generalizing A with
  | nil => exact h
  | cons j rest ih => exact ih _ (check_bit_set_bit_mono _ _ _ h)

theorem foldl_set_bit_mem (ks : List ℕ) (A : List ℕ) (k : ℕ)
    (hk : k ∈ ks) (hr : k / 8 < A.length) :
    check_bit (ks.foldl set_bit A) k ≠ 0 := by
  induction ks generalizing A with
  | nil => cases hk
  | cons j rest ih =>
    rw [List.foldl_cons]
    rcases List.mem_cons.mp hk with rfl | hmem
    · exact foldl_set_bit_mono _ _ _ (check_bit_set_bit_self _ _ hr)
    · exact ih (set_bit A j) hmem (by rw [length_set_bit]; exact hr)


/-! ### Effect of the filter operations on the state -/

theorem add_string_fields (bf : BloomFilter) (s : String) :
    (bloom_filter_add_string bf s).1.number_hashes = bf.number_hashes ∧
    (bloom_filter_add_string bf s).1.number_bits = bf.number_bits ∧
    (bloom_filter_add_string bf s).1.hash_function = bf.hash_function ∧
    (bloom_filter_add_string bf s).1.bloom_length = bf.bloom_length ∧
    (bloom_filter_add_string bf s).1.estimated_elements =
      bf.estimated_elements :=
  ⟨rfl, rfl, rfl, rfl, rfl⟩

theorem liveBits_add_string (bf : BloomFilter) (s : String) :
    liveBits (bloom_filter_add_string bf s).1 =
      (List.range bf.number_hashes).foldl
        (fun A i => set_bit A ((bloomHashes bf s).getD i 0)) (liveBits bf) :=
  rfl

theorem bloomHashes_congr (bf bf2 : BloomFilter) (s : String)
    (h1 : bf2.number_hashes = bf.number_hashes)
    (h2 : bf2.number_bits = bf.number_bits)
    (h3 : bf2.hash_function = bf.hash_function) :
    bloomHashes bf2 s = bloomHashes bf s := by
  unfold bloomHashes
  rw [h1, h2, h3]

theorem liveBits_add_string_eq_foldl_map (bf : BloomFilter) (s : String) :
    liveBits (bloom_filter_add_string bf s).1 =
      ((List.range bf.number_hashes).map
        (fun i => (bloomHashes bf s).getD i 0)).foldl set_bit (liveBits bf) := by
  rw [liveBits_add_string, List.foldl_map]

theorem liveBits_add_string_length (bf : BloomFilter) (s : String) :
    (liveBits (bloom_filter_add_string bf s).1).length =
      (liveBits bf).length := by
  rw [liveBits_add_string_eq_foldl_map, foldl_set_bit_length]

theorem check_bit_add_string_mono (bf : BloomFilter) (s : String) (k : ℕ)
    (h : check_bit (liveBits bf) k ≠ 0) :
    check_bit (liveBits (bloom_filter_add_string bf s).1) k ≠ 0 := by
  rw [liveBits_add_string_eq_foldl_map]
  exact foldl_set_bit_mono _ _ _ h

theorem insertList_fields (bf : BloomFilter) (l : List String) :
    (insertList bf l).number_hashes = bf.number_hashes ∧
    (insertList bf l).number_bits = bf.number_bits ∧
    (insertList bf l).hash_function = bf.hash_function ∧
    (insertList bf l).bloom_length = bf.bloom_length := by
  induction l generalizing bf with
  | nil => exact ⟨rfl, rfl, rfl, rfl⟩
  | cons s rest ih =>
    have hstep := add_string_fields bf s
    have hrest := ih (bloom_filter_add_string bf s).1
    unfold insertList at hrest ⊢
    rw [List.foldl_cons]
    refine ⟨?_, ?_, ?_, ?_⟩
    · rw [hrest.1, hstep.1]
    · rw [hrest.2.1, hstep.2.1]
    · rw [hrest.2.2.1, hstep.2.2.1]
    · rw [hrest.2.2.2, hstep.2.2.2.1]

theorem insertList_liveBits_length (bf : BloomFilter) (l : List String) :
    (liveBits (insertList bf l)).length = (liveBits bf).length := by
  induction l generalizing bf with
  | nil => rfl
  | cons s rest ih =>
    unfold insertList at ih ⊢
    rw [List.foldl_cons, ih, liveBits_add_string_length]

theorem check_bit_insertList_mono (bf : BloomFilter) (l : List String) (k : ℕ)
    (h : check_bit (liveBits bf) k ≠ 0) :
    check_bit (liveBits (insertList bf l)) k ≠ 0 := by
  induction l generalizing bf with
  | nil => exact h
  | cons s rest ih =>
    unfold insertList at ih ⊢
    rw [List.foldl_cons]
    exact ih _ (check_bit_add_string_mono _ _ _ h)

theorem check_string_eq_success_iff (bf : BloomFilter) (s : String) :
    (bloom_filter_check_string bf s).2 = BLOOM_SUCCESS ↔
      ∀ i < bf.number_hashes,
        check_bit (liveBits bf) ((bloomHashes bf s).getD i 0) ≠ 0 := by
  show (if (List.range bf.number_hashes).all
      (fun i => check_bit (liveBits bf) ((bloomHashes bf s).getD i 0) != 0)
    then BLOOM_SUCCESS else BLOOM_FAILURE) = BLOOM_SUCCESS ↔ _
  split
  · next hall =>
    simp only [List.all_eq_true, List.mem_range, bne_iff_ne] at hall
    exact iff_of_true rfl hall
  · next hall =>
    simp only [List.all_eq_true, List.mem_range, bne_iff_ne] at hall
    refine iff_of_false ?_ hall
    simp [BLOOM_FAILURE, BLOOM_SUCCESS]

/-! ### Concrete fixtures for witnesses and counterexamples -/

/-- A small deterministic hash strategy used by concrete witnesses. -/
def testHash : HashFunction :=
  fun c m s => (List.range c).map (fun i => (s.length * 3 + i * 5) % m)

/-- A stand-in 16-byte digest function used by concrete witnesses. -/
def testDigest : List ℕ → List ℕ := fun _ => List.replicate 16 1

/-- A small live filter used by concrete witnesses and counterexamples. -/
def bfTest : BloomFilter :=
  { estimated_elements := 10
    false_positive_probability := 0
    number_hashes := 2
    number_bits := 16
    bloom_length := 2
    bloom := some [255, 0]
    elements_added := 1
    hash_function := some testHash }

/-! ### The claims -/

/-- C1: for every validly constructed (live) filter and every string `x`,
after `bloom_filter_add_string bf x` — regardless of the insertions `pre`
made before and `post` made after — `bloom_filter_check_string _ x` returns
`BLOOM_SUCCESS`.  The model's hash strategies are pure functions, hence
deterministic and the same throughout; `hrange` is the spec's hash-range
invariant (`index < number_bits ≤ 8 * bloom_length`) instantiated at `x`:
each index addresses a byte inside the allocated store. -/
theorem claim_C1_no_false_negatives (bf : BloomFilter) (x : String)
    (pre post : List String) (A : List ℕ)
    (hlive : bf.bloom = some A)
    (hrange : ∀ i < bf.number_hashes,
      (bloomHashes bf x).getD i 0 < 8 * A.length) :
    (bloom_filter_check_string
      (insertList (bloom_filter_add_string (insertList bf pre) x).1 post)
      x).2 = BLOOM_SUCCESS := by
  have hf1 := insertList_fields bf pre
  have hhash1 : bloomHashes (insertList bf pre) x = bloomHashes bf x :=
    bloomHashes_congr _ _ _ hf1.1 hf1.2.1 hf1.2.2.1
  set bf1 := insertList bf pre with hbf1
  set bf2 := (bloom_filter_add_string bf1 x).1 with hbf2
  have hf2 := add_string_fields bf1 x
  have hf3 := insertList_fields bf2 post
  rw [check_string_eq_success_iff]
  have hnh : (insertList bf2 post).number_hashes = bf.number_hashes := by
    rw [hf3.1, hf2.1, hf1.1]
  have hhash3 : bloomHashes (insertList bf2 post) x = bloomHashes bf x := by
    refine Eq.trans (bloomHashes_congr _ _ x hf3.1 hf3.2.1 hf3.2.2.1) ?_
    exact Eq.trans (bloomHashes_congr _ _ x hf2.1 hf2.2.1 hf2.2.2.1) hhash1
  rw [hnh, hhash3]
  intro i hi
  apply check_bit_insertList_mono
  rw [hbf2, liveBits_add_string_eq_foldl_map, hhash1]
  have hlen1 : (liveBits bf1).length = A.length := by
    rw [hbf1, insertList_liveBits_length]
    simp [liveBits, hlive]
  apply foldl_set_bit_mem
  · rw [hf1.1]
    exact List.mem_map.mpr ⟨i, List.mem_range.mpr hi, rfl⟩
  · rw [hlen1]
    have := hrange i hi
    omega

/-- Witness for C1: a concrete filter, insertions before and after, and a
successful membership check of the inserted string. -/
theorem claim_C1_witness :
    (bloom_filter_check_string
      (insertList (bloom_filter_add_string (insertList bfTest ["bb"]) "a").1
        ["cccc"]) "a").2 = BLOOM_SUCCESS :=
  claim_C1_no_false_negatives bfTest "a" ["bb"] ["cccc"] [255, 0] rfl
    (by decide)

/-- C4: `bloom_filter_init` fails (produces no filter) exactly when
`estimated_elements = 0` (the only `uint64_t` value with
`estimated_elements <= 0`; the comparison `> UINT64_MAX` is always false)
or the false-positive rate lies outside the open interval (0, 1); for all
other inputs it succeeds. -/
theorem claim_C4_init_validation (MD5 : List ℕ → List ℕ) (n : ℕ) (p : ℝ)
    (hf : Option HashFunction) :
    bloom_filter_init MD5 n p hf = none ↔ n = 0 ∨ p ≤ 0 ∨ 1 ≤ p := by
  unfold bloom_filter_init
  split
  · next h => simp [h]
  · next h =>
    split
    · next h2 =>
      simp only [eq_self_iff_true, true_iff]
      exact Or.inr h2
    · next h2 =>
      constructor
      · intro hcon
        exact absurd hcon (by simp)
      · intro hor
        exact absurd (hor.resolve_left h) h2

/-- C5: insertion only turns bits on: every set bit of the store stays set
after `bloom_filter_add_string`, the count of set bits is non-decreasing, and
any string whose membership check succeeded keeps succeeding after the
insertion and after any further sequence of insertions.  (Insertion is the
only operation that writes to the bit store, and `set_bit` only ORs a mask
in, so no operation clears a set bit.) -/
theorem claim_C5_monotonic_bits (bf : BloomFilter) (x : String) :
    (∀ k, check_bit (liveBits bf) k ≠ 0 →
        check_bit (liveBits (bloom_filter_add_string bf x).1) k ≠ 0) ∧
    countSetBits (liveBits bf) ≤
      countSetBits (liveBits (bloom_filter_add_string bf x).1) ∧
    (∀ (y : String) (more : List String),
      (bloom_filter_check_string bf y).2 = BLOOM_SUCCESS →
      (bloom_filter_check_string
          (insertList (bloom_filter_add_string bf x).1 more) y).2 =
        BLOOM_SUCCESS) := by
  refine ⟨fun k => check_bit_add_string_mono bf x k, ?_, ?_⟩
  · unfold countSetBits
    rw [liveBits_add_string_length]
    apply List.countP_mono_left
    intro k _ hp
    exact bne_iff_ne.mpr
      (check_bit_add_string_mono bf x k (bne_iff_ne.mp hp))
  · intro y more hy
    rw [check_string_eq_success_iff] at hy ⊢
    have hf2 := add_string_fields bf x
    have hf3 := insertList_fields (bloom_filter_add_string bf x).1 more
    have hnh : (insertList (bloom_filter_add_string bf x).1 more).number_hashes
        = bf.number_hashes := by
      rw [hf3.1, hf2.1]
    have hhash :
        bloomHashes (insertList (bloom_filter_add_string bf x).1 more) y =
          bloomHashes bf y := by
      refine Eq.trans (bloomHashes_congr _ _ y hf3.1 hf3.2.1 hf3.2.2.1) ?_
      exact bloomHashes_congr _ _ y hf2.1 hf2.2.1 hf2.2.2.1
    rw [hnh, hhash]
    intro i hi
    exact check_bit_insertList_mono _ _ _
      (check_bit_add_string_mono _ _ _ (hy i hi))

/-- C9, counterexample to the claim as stated: `bloom_filter_destroy` does
not zero `bloom_length` (the C function never assigns it), so a filter whose
`bloom_length` is 2 keeps it after teardown. -/
theorem claim_C9_counterexample :
    ¬ ((bloom_filter_destroy bfTest).1.bloom_length = 0) := by
  simp [bloom_filter_destroy, bfTest]

/-- C9 as amended: teardown zeroes every scalar field except
`bit_store_length` (`bloom_length`), which keeps its previous value; both
references become NULL; the call returns success; and a second teardown also
returns success and leaves the state unchanged. -/
theorem claim_C9_destroy_amended (bf : BloomFilter) :
    (bloom_filter_destroy bf).2 = BLOOM_SUCCESS ∧
    (bloom_filter_destroy bf).1.estimated_elements = 0 ∧
    (bloom_filter_destroy bf).1.false_positive_probability = 0 ∧
    (bloom_filter_destroy bf).1.number_bits = 0 ∧
    (bloom_filter_destroy bf).1.number_hashes = 0 ∧
    (bloom_filter_destroy bf).1.elements_added = 0 ∧
    (bloom_filter_destroy bf).1.bloom = none ∧
    (bloom_filter_destroy bf).1.hash_function = none ∧
    (bloom_filter_destroy bf).1.bloom_length = bf.bloom_length ∧
    bloom_filter_destroy (bloom_filter_destroy bf).1 =
      ((bloom_filter_destroy bf).1, BLOOM_SUCCESS) :=
  ⟨rfl, rfl, rfl, rfl, rfl, rfl, rfl, rfl, rfl, rfl⟩

/-- C10: the membership check never writes to the filter: the returned state
equals the input state in every field, including every byte of the bit store
and `elements_added` (the C body reads `*bf` but assigns no field of it). -/
theorem claim_C10_check_frame (bf : BloomFilter) (x : String) :
    (bloom_filter_check_string bf x).1 = bf ∧
    (bloom_filter_check_string bf x).1.bloom = bf.bloom ∧
    (bloom_filter_check_string bf x).1.elements_added = bf.elements_added ∧
    (bloom_filter_check_string bf x).1.estimated_elements =
      bf.estimated_elements ∧
    (bloom_filter_check_string bf x).1.false_positive_probability =
      bf.false_positive_probability ∧
    (bloom_filter_check_string bf x).1.number_bits = bf.number_bits ∧
    (bloom_filter_check_string bf x).1.number_hashes = bf.number_hashes ∧
    (bloom_filter_check_string bf x).1.bloom_length = bf.bloom_length ∧
    (bloom_filter_check_string bf x).1.hash_function = bf.hash_function :=
  ⟨rfl, rfl, rfl, rfl, rfl, rfl, rfl, rfl, rfl⟩

theorem u64Bytes_length (x : ℕ) : (u64Bytes x).length = 8 := by
  simp [u64Bytes]

theorem leValue_rangeMap (n : ℕ) : ∀ x : ℕ,
    leValue ((List.range n).map (fun i => x / 256 ^ i % 256)) = x % 256 ^ n := by
  induction n with
  | zero => intro x; simp [leValue, Nat.mod_one]
  | succ m ih =>
    intro x
    rw [List.range_succ_eq_map, List.map_cons, List.map_map, leValue]
    have hcomp : ((fun i => x / 256 ^ i % 256) ∘ Nat.succ) =
        (fun i => x / 256 / 256 ^ i % 256) := by
      funext i
      have h1 : (256 : ℕ) ^ (i + 1) = 256 * 256 ^ i := by ring
      rw [Function.comp_apply, Nat.succ_eq_add_one, h1,
        ← Nat.div_div_eq_div_mul]
    rw [hcomp, ih (x / 256)]
    have h2 : (256 : ℕ) ^ (m + 1) = 256 * 256 ^ m := by ring
    rw [h2, Nat.mod_mul]
    simp [pow_zero, Nat.div_one]

theorem leValue_u64Bytes (x : ℕ) (hx : x < 2 ^ 64) :
    leValue (u64Bytes x) = x := by
  unfold u64Bytes
  rw [leValue_rangeMap]
  have h8 : (256 : ℕ) ^ 8 = 2 ^ 64 := by norm_num
  rw [h8]
  exact Nat.mod_eq_of_lt hx

/-- C7: export writes, in this order, `estimated_elements` as 8 bytes,
`elements_added` as 8 bytes, the 4 bytes of the float
`false_positive_probability`, then exactly `bloom_length` raw bytes of the
bit store — 20 + `bloom_length` bytes in total; the status is
`BLOOM_FAILURE` iff the destination cannot be opened, and in that case
nothing is written. -/
theorem claim_C7_export_format (f32enc : ℝ → List ℕ) (bf : BloomFilter)
    (A : List ℕ) (hlive : bf.bloom = some A)
    (hlen : A.length = bf.bloom_length)
    (henc : (f32enc bf.false_positive_probability).length = 4) :
    bloom_filter_export f32enc bf true =
      (some (u64Bytes bf.estimated_elements ++ u64Bytes bf.elements_added ++
        f32enc bf.false_positive_probability ++ A), BLOOM_SUCCESS) ∧
    (∀ out : List ℕ, (bloom_filter_export f32enc bf true).1 = some out →
      out.length = 20 + bf.bloom_length) ∧
    (∀ canOpen : Bool,
      ((bloom_filter_export f32enc bf canOpen).2 = BLOOM_FAILURE ↔
        canOpen = false)) ∧
    (bloom_filter_export f32enc bf false).1 = none := by
  have htake : (liveBits bf).take bf.bloom_length = A := by
    rw [liveBits, hlive, Option.getD_some, ← hlen, List.take_length]
  have hmain : bloom_filter_export f32enc bf true =
      (some (u64Bytes bf.estimated_elements ++ u64Bytes bf.elements_added ++
        f32enc bf.false_positive_probability ++ A), BLOOM_SUCCESS) := by
    unfold bloom_filter_export
    rw [if_pos rfl, htake]
  refine ⟨hmain, ?_, ?_, rfl⟩
  · intro out hout
    rw [hmain] at hout
    have : out = u64Bytes bf.estimated_elements ++ u64Bytes bf.elements_added
        ++ f32enc bf.false_positive_probability ++ A :=
      Option.some.injEq _ _ ▸ hout.symm
    rw [this]
    simp [u64Bytes_length, henc, ← hlen]
    omega
  · intro canOpen
    cases canOpen
    · simp [bloom_filter_export]
    · rw [hmain]
      simp [BLOOM_SUCCESS, BLOOM_FAILURE]

/-- Witness for C7: a concrete export, laid out byte for byte. -/
theorem claim_C7_witness :
    bloom_filter_export (fun _ => [1, 2, 3, 4]) bfTest true =
      (some (u64Bytes bfTest.estimated_elements ++
        u64Bytes bfTest.elements_added ++ [1, 2, 3, 4] ++ [255, 0]),
        BLOOM_SUCCESS) :=
  (claim_C7_export_format (fun _ => [1, 2, 3, 4]) bfTest [255, 0]
    rfl rfl rfl).1

/-- C8: the default hash adapter returns exactly `count` indices; index `i`
is the first 8 bytes (read as one little-endian unsigned integer) of the
i-th chained digest reduced modulo `modulus`, hence strictly below
`modulus`; digest 0 is of the item's bytes and digest `i+1` is of the raw
digest bytes of step `i`. -/
theorem claim_C8_default_hash (MD5 : List ℕ → List ℕ) (count modulus : ℕ)
    (str : String) (hmod : 0 < modulus) :
    (md5_hash_default MD5 count modulus str).length = count ∧
    (∀ i, i < count →
      (md5_hash_default MD5 count modulus str).getD i 0 =
        first8LE (digestChain MD5 str i) % modulus ∧
      (md5_hash_default MD5 count modulus str).getD i 0 < modulus) ∧
    digestChain MD5 str 0 = MD5 (strBytes str) ∧
    (∀ i, digestChain MD5 str (i + 1) = MD5 (digestChain MD5 str i)) := by
  refine ⟨by simp [md5_hash_default], ?_, rfl, fun i => rfl⟩
  intro i hi
  have hgd : (md5_hash_default MD5 count modulus str).getD i 0 =
      first8LE (digestChain MD5 str i) % modulus := by
    unfold md5_hash_default
    rw [List.getD_eq_getElem?_getD, List.getElem?_map, List.getElem?_range hi]
    rfl
  exact ⟨hgd, hgd ▸ Nat.mod_lt _ hmod⟩

/-- C2: exporting a well-formed filter and importing the file with the same
hash strategy reproduces the filter exactly — in particular identical
`estimated_elements`, `elements_added` and `false_positive_probability`, and
identical `contains` answers for every string, so in particular for every
item inserted before the export.  `hwf` says the sizing fields are the ones
the Parameter Calculator derives from the first and third header fields (as
construction guarantees); `hdec` says reading back the 4 written float bytes
restores the stored value (in C the 4-byte bit pattern is copied verbatim);
`hhf` says the same hash strategy is passed to the import. -/
theorem claim_C2_export_import_roundtrip (MD5 : List ℕ → List ℕ)
    (f32enc : ℝ → List ℕ) (f32dec : List ℕ → ℝ) (bf : BloomFilter)
    (A : List ℕ) (hf : Option HashFunction)
    (hlive : bf.bloom = some A) (hlen : A.length = bf.bloom_length)
    (hwf : calculate_optimal_hashes bf.estimated_elements
      bf.false_positive_probability =
      (bf.number_bits, bf.number_hashes, bf.bloom_length))
    (hn : bf.estimated_elements < 2 ^ 64) (hea : bf.elements_added < 2 ^ 64)
    (henc : (f32enc bf.false_positive_probability).length = 4)
    (hdec : f32dec (f32enc bf.false_positive_probability) =
      bf.false_positive_probability)
    (hhf : bf.hash_function = some (hf.getD (md5_hash_default MD5))) :
    bloom_filter_import MD5 f32dec (bloom_filter_export f32enc bf true).1 hf
      = some bf ∧
    (∀ x : String,
      ∃ bf2,
        bloom_filter_import MD5 f32dec
          (bloom_filter_export f32enc bf true).1 hf = some bf2 ∧
        bf2.estimated_elements = bf.estimated_elements ∧
        bf2.elements_added = bf.elements_added ∧
        bf2.false_positive_probability = bf.false_positive_probability ∧
        (bloom_filter_check_string bf2 x).2 =
          (bloom_filter_check_string bf x).2) := by
  have htake : (liveBits bf).take bf.bloom_length = A := by
    rw [liveBits, hlive, Option.getD_some, ← hlen, List.take_length]
  have hexp : (bloom_filter_export f32enc bf true).1 =
      some (u64Bytes bf.estimated_elements ++ (u64Bytes bf.elements_added ++
        (f32enc bf.false_positive_probability ++ A))) := by
    unfold bloom_filter_export
    rw [if_pos rfl, htake]
    simp [List.append_assoc]
  set data := u64Bytes bf.estimated_elements ++ (u64Bytes bf.elements_added ++
    (f32enc bf.false_positive_probability ++ A)) with hdata
  have ht8 : data.take 8 = u64Bytes bf.estimated_elements :=
    List.take_left' (u64Bytes_length _)
  have hd8 : data.drop 8 = u64Bytes bf.elements_added ++
      (f32enc bf.false_positive_probability ++ A) :=
    List.drop_left' (u64Bytes_length _)
  have ht16 : (data.drop 8).take 8 = u64Bytes bf.elements_added := by
    rw [hd8]
    exact List.take_left' (u64Bytes_length _)
  have hd16 : data.drop 16 = f32enc bf.false_positive_probability ++ A := by
    have hsplit : data.drop 16 = (data.drop 8).drop 8 := by
      rw [List.drop_drop]
    rw [hsplit, hd8]
    exact List.drop_left' (u64Bytes_length _)
  have ht20 : (data.drop 16).take 4 = f32enc bf.false_positive_probability := by
    rw [hd16]
    exact List.take_left' henc
  have hd20 : data.drop 20 = A := by
    have hsplit : data.drop 20 = (data.drop 16).drop 4 := by
      rw [List.drop_drop]
    rw [hsplit, hd16]
    exact List.drop_left' henc
  have hval1 : leValue (data.take 8) = bf.estimated_elements := by
    rw [ht8, leValue_u64Bytes _ hn]
  have hval2 : leValue ((data.drop 8).take 8) = bf.elements_added := by
    rw [ht16, leValue_u64Bytes _ hea]
  have hval3 : f32dec ((data.drop 16).take 4) = bf.false_positive_probability := by
    rw [ht20, hdec]
  have himp : bloom_filter_import MD5 f32dec
      (bloom_filter_export f32enc bf true).1 hf = some bf := by
    rw [hexp]
    unfold bloom_filter_import
    simp only [hval1, hval2, hval3, hwf, hd20]
    unfold bloom_filter_set_hash_function
    refine congrArg some ?_
    have hbf : bf = ⟨bf.estimated_elements, bf.false_positive_probability,
        bf.number_hashes, bf.number_bits, bf.bloom_length, bf.bloom,
        bf.elements_added, bf.hash_function⟩ := rfl
    rw [hbf]
    simp only [BloomFilter.mk.injEq]
    refine ⟨by trivial, by trivial, by trivial, by trivial, by trivial, ?_,
      by trivial, hhf.symm⟩
    rw [← hlen, List.take_length, Nat.sub_self, List.replicate_zero,
      List.append_nil, hlive]
  exact ⟨himp, fun x => ⟨bf, himp, rfl, rfl, rfl, rfl⟩⟩

/-- Witness for C8: the adapter at a concrete digest function, count,
modulus and item. -/
theorem claim_C8_witness :
    (md5_hash_default testDigest 3 16 "ab").length = 3 ∧
    (md5_hash_default testDigest 3 16 "ab").getD 0 0 < 16 :=
  ⟨(claim_C8_default_hash testDigest 3 16 "ab" (by decide)).1,
   ((claim_C8_default_hash testDigest 3 16 "ab" (by decide)).2.1 0
     (by decide)).2⟩

/-! ### Numerical bounds for the Parameter Calculator -/

theorem exp_lo_lt : Real.exp ((460514215 : ℝ) / 10 ^ 8) < 100 := by
  have hsplit : (460514215 : ℝ) / 10 ^ 8 = 1 + 1 + 1 + 1 + 60514215 / 10 ^ 8 := by
    norm_num
  have hr : Real.exp ((60514215 : ℝ) / 10 ^ 8) ≤
      (∑ m ∈ Finset.range 11, ((60514215 : ℝ) / 10 ^ 8) ^ m / m.factorial) +
        ((60514215 : ℝ) / 10 ^ 8) ^ 11 * (11 + 1) /
          (Nat.factorial 11 * 11) :=
    @Real.exp_bound' ((60514215 : ℝ) / 10 ^ 8) (by norm_num) (by norm_num)
      11 (by norm_num)
  have hsum : Real.exp ((60514215 : ℝ) / 10 ^ 8) ≤ 18315126 / 10 ^ 7 := by
    refine le_trans hr ?_
    simp only [Finset.sum_range_succ, Finset.sum_range_zero]
    norm_num [Nat.factorial]
  rw [hsplit, Real.exp_add, Real.exp_add, Real.exp_add, Real.exp_add]
  have h1 : Real.exp 1 ≤ 2.7182818286 := Real.exp_one_lt_d9.le
  have hpos : (0 : ℝ) ≤ Real.exp 1 := (Real.exp_pos 1).le
  calc Real.exp 1 * Real.exp 1 * Real.exp 1 * Real.exp 1 *
        Real.exp (60514215 / 10 ^ 8)
      ≤ 2.7182818286 * 2.7182818286 * 2.7182818286 * 2.7182818286 *
        (18315126 / 10 ^ 7) := by
        gcongr
    _ < 100 := by norm_num

theorem exp_hi_ge : (100 : ℝ) ≤ Real.exp ((460519018 : ℝ) / 10 ^ 8) := by
  have hsplit : (460519018 : ℝ) / 10 ^ 8 = 1 + 1 + 1 + 1 + 60519018 / 10 ^ 8 := by
    norm_num
  have hsum : (18315944 : ℝ) / 10 ^ 7 ≤
      ∑ m ∈ Finset.range 12, ((60519018 : ℝ) / 10 ^ 8) ^ m / m.factorial := by
    simp only [Finset.sum_range_succ, Finset.sum_range_zero]
    norm_num [Nat.factorial]
  have hr : (18315944 : ℝ) / 10 ^ 7 ≤ Real.exp ((60519018 : ℝ) / 10 ^ 8) :=
    le_trans hsum (Real.sum_le_exp_of_nonneg (by norm_num) 12)
  rw [hsplit, Real.exp_add, Real.exp_add, Real.exp_add, Real.exp_add]
  have h1 : (2.7182818283 : ℝ) ≤ Real.exp 1 := Real.exp_one_gt_d9.le
  calc (100 : ℝ)
      ≤ 2.7182818283 * 2.7182818283 * 2.7182818283 * 2.7182818283 *
        (18315944 / 10 ^ 7) := by norm_num
    _ ≤ Real.exp 1 * Real.exp 1 * Real.exp 1 * Real.exp 1 *
        Real.exp (60519018 / 10 ^ 8) := by
        gcongr

theorem log_hundred_gt : (460514215 : ℝ) / 10 ^ 8 < Real.log 100 :=
  (Real.lt_log_iff_exp_lt (by norm_num)).mpr exp_lo_lt

theorem log_hundred_le : Real.log 100 ≤ (460519018 : ℝ) / 10 ^ 8 :=
  (Real.log_le_iff_le_exp (by norm_num)).mpr exp_hi_ge

theorem calcOpt_scenario :
    calculate_optimal_hashes 10000 (1 / 100) = (95851, 7, 11982) := by
  have hlog : Real.log ((1 : ℝ) / 100) = -Real.log 100 := by
    rw [one_div, Real.log_inv]
  have hm : ⌈-((10000 : ℕ) : ℝ) * Real.log ((1 : ℝ) / 100) /
      LOG_TWO_SQUARED⌉₊ = 95851 := by
    rw [hlog]
    have hval : -((10000 : ℕ) : ℝ) * -Real.log 100 / LOG_TWO_SQUARED =
        10000 * Real.log 100 / LOG_TWO_SQUARED := by
      push_cast
      ring
    rw [hval]
    rw [Nat.ceil_eq_iff (by norm_num)]
    unfold LOG_TWO_SQUARED
    constructor
    · rw [lt_div_iff₀ (by norm_num)]
      push_cast
      nlinarith [log_hundred_gt]
    · rw [div_le_iff₀ (by norm_num)]
      push_cast
      nlinarith [log_hundred_le]
  have hk : (round (Real.log 2 * ((95851 : ℕ) : ℝ) / ((10000 : ℕ) : ℝ))).toNat
      = 7 := by
    have harg : Real.log 2 * ((95851 : ℕ) : ℝ) / ((10000 : ℕ) : ℝ) =
        Real.log 2 * 95851 / 10000 := by
      push_cast
      ring
    have hfl : round (Real.log 2 * (95851 : ℝ) / 10000) = 7 := by
      rw [round_eq, Int.floor_eq_iff]
      constructor
      · push_cast
        nlinarith [Real.log_two_gt_d9]
      · push_cast
        nlinarith [Real.log_two_lt_d9]
    rw [harg, hfl]
    rfl
  have hlen : ⌈((95851 : ℕ) : ℝ) / 8⌉₊ = 11982 := by
    rw [Nat.ceil_eq_iff (by norm_num)]
    push_cast
    norm_num
  simp only [calculate_optimal_hashes]
  rw [hm, hk, hlen]

theorem calcOpt_one_half : calculate_optimal_hashes 1 (1 / 2) = (2, 1, 1) := by
  have hlog : Real.log ((1 : ℝ) / 2) = -Real.log 2 := by
    rw [one_div, Real.log_inv]
  have hm : ⌈-((1 : ℕ) : ℝ) * Real.log ((1 : ℝ) / 2) /
      LOG_TWO_SQUARED⌉₊ = 2 := by
    rw [hlog]
    have hval : -((1 : ℕ) : ℝ) * -Real.log 2 / LOG_TWO_SQUARED =
        Real.log 2 / LOG_TWO_SQUARED := by
      push_cast
      ring
    rw [hval]
    rw [Nat.ceil_eq_iff (by norm_num)]
    unfold LOG_TWO_SQUARED
    constructor
    · rw [lt_div_iff₀ (by norm_num)]
      push_cast
      nlinarith [Real.log_two_gt_d9]
    · rw [div_le_iff₀ (by norm_num)]
      nlinarith [Real.log_two_lt_d9]
  have hk : (round (Real.log 2 * ((2 : ℕ) : ℝ) / ((1 : ℕ) : ℝ))).toNat
      = 1 := by
    have harg : Real.log 2 * ((2 : ℕ) : ℝ) / ((1 : ℕ) : ℝ) =
        2 * Real.log 2 := by
      push_cast
      ring
    have hfl : round (2 * Real.log 2) = 1 := by
      rw [round_eq, Int.floor_eq_iff]
      constructor
      · push_cast
        nlinarith [Real.log_two_gt_d9]
      · push_cast
        nlinarith [Real.log_two_lt_d9]
    rw [harg, hfl]
    rfl
  have hlen : ⌈((2 : ℕ) : ℝ) / 8⌉₊ = 1 := by
    rw [Nat.ceil_eq_iff (by norm_num)]
    push_cast
    norm_num
  simp only [calculate_optimal_hashes]
  rw [hm, hk, hlen]

/-- C3: construction derives `number_bits` as
`ceil(-n * ln p / LOG_TWO_SQUARED)` — where `LOG_TWO_SQUARED` is the code's
13-digit decimal constant for `(ln 2)²`, proved here to agree with
`(ln 2)²` to within `10⁻⁹` — `number_hashes = round(ln 2 * m / n)` and
`bit_store_length = ceil(m / 8)`; for `n = 10000`, `p = 0.01` the derived
values are `number_bits = 95851`, `number_hashes = 7` (and
`bit_store_length = 11982`), and the spec's exact formula
`ceil(-n * ln p / (ln 2)²)` yields the same 95851 there. -/
theorem claim_C3_parameter_calculator :
    (∀ (MD5 : List ℕ → List ℕ) (n : ℕ) (p : ℝ) (hf : Option HashFunction)
        (bf : BloomFilter),
      bloom_filter_init MD5 n p hf = some bf →
        bf.number_bits = ⌈-(n : ℝ) * Real.log p / LOG_TWO_SQUARED⌉₊ ∧
        bf.number_hashes =
          (round (Real.log 2 * (bf.number_bits : ℝ) / (n : ℝ))).toNat ∧
        bf.bloom_length = ⌈(bf.number_bits : ℝ) / 8⌉₊) ∧
    |LOG_TWO_SQUARED - Real.log 2 ^ 2| < 1 / 10 ^ 9 ∧
    ⌈-(10000 : ℝ) * Real.log (1 / 100) / Real.log 2 ^ 2⌉₊ = 95851 ∧
    (∀ (MD5 : List ℕ → List ℕ) (hf : Option HashFunction) (bf : BloomFilter),
      bloom_filter_init MD5 10000 (1 / 100) hf = some bf →
        bf.number_bits = 95851 ∧ bf.number_hashes = 7 ∧
        bf.bloom_length = 11982) := by
  have hsq_lo : (0.6931471803 : ℝ) ^ 2 < Real.log 2 ^ 2 := by
    have h := Real.log_two_gt_d9
    nlinarith [h]
  have hsq_hi : Real.log 2 ^ 2 < (0.6931471808 : ℝ) ^ 2 := by
    have h := Real.log_two_lt_d9
    have h0 := Real.log_two_gt_d9
    nlinarith [h, h0]
  refine ⟨?_, ?_, ?_, ?_⟩
  · intro MD5 n p hf bf hinit
    unfold bloom_filter_init at hinit
    split at hinit
    · exact absurd hinit (by simp)
    · split at hinit
      · exact absurd hinit (by simp)
      · have hbf := Option.some.inj hinit
        rw [← hbf]
        exact ⟨rfl, rfl, rfl⟩
  · rw [abs_sub_lt_iff]
    unfold LOG_TWO_SQUARED
    constructor <;> nlinarith [hsq_lo, hsq_hi]
  · have hlog : Real.log ((1 : ℝ) / 100) = -Real.log 100 := by
      rw [one_div, Real.log_inv]
    rw [hlog]
    have hval : -(10000 : ℝ) * -Real.log 100 / Real.log 2 ^ 2 =
        10000 * Real.log 100 / Real.log 2 ^ 2 := by
      ring
    rw [hval]
    rw [Nat.ceil_eq_iff (by norm_num)]
    have hpos : (0 : ℝ) < Real.log 2 ^ 2 := by
      nlinarith [hsq_lo]
    constructor
    · rw [lt_div_iff₀ hpos]
      push_cast
      nlinarith [log_hundred_gt, hsq_hi]
    · rw [div_le_iff₀ hpos]
      push_cast
      nlinarith [log_hundred_le, hsq_lo]
  · intro MD5 hf bf hinit
    unfold bloom_filter_init at hinit
    rw [if_neg (by norm_num), if_neg (by norm_num)] at hinit
    have hbf := Option.some.inj hinit
    rw [← hbf]
    refine ⟨?_, ?_, ?_⟩
    · show (calculate_optimal_hashes 10000 (1 / 100)).1 = 95851
      rw [calcOpt_scenario]
    · show (calculate_optimal_hashes 10000 (1 / 100)).2.1 = 7
      rw [calcOpt_scenario]
    · show (calculate_optimal_hashes 10000 (1 / 100)).2.2 = 11982
      rw [calcOpt_scenario]

/-- A well-formed filter for the C2 witness: capacity 1, rate 1/2, for which
the Parameter Calculator yields `(number_bits, number_hashes, bloom_length)
= (2, 1, 1)` (see `calcOpt_one_half`), with one inserted element recorded
and the default hash adapter over `testDigest` bound. -/
noncomputable def bfC2 : BloomFilter :=
  { estimated_elements := 1
    false_positive_probability := 1 / 2
    number_hashes := 1
    number_bits := 2
    bloom_length := 1
    bloom := some [3]
    elements_added := 5
    hash_function := some (md5_hash_default testDigest) }

/-- Witness for C2: the concrete filter `bfC2` round-trips exactly through
export and import. -/
theorem claim_C2_witness :
    bloom_filter_import testDigest (fun _ => (1 : ℝ) / 2)
      (bloom_filter_export (fun _ => [9, 9, 9, 9]) bfC2 true).1 none =
      some bfC2 :=
  (claim_C2_export_import_roundtrip testDigest (fun _ => [9, 9, 9, 9])
    (fun _ => (1 : ℝ) / 2) bfC2 [3] none rfl rfl calcOpt_one_half
    (by decide) (by decide) rfl rfl rfl).1

/-- The filter for the C6 counterexample: one hash function and
`elements_added = 2^32`, a value a `uint64_t` counter reaches after `2^32`
insert calls. -/
def bfC6 : BloomFilter :=
  { estimated_elements := 100
    false_positive_probability := 0
    number_hashes := 1
    number_bits := 10
    bloom_length := 2
    bloom := some [0, 0]
    elements_added := 2 ^ 32
    hash_function := some testHash }

/-- C6, counterexample to the claim as stated: at `elements_added = 2^32`
with one hash, the product `number_hashes * -1 * elements_added` stored into
the 32-bit `int num` truncates to 0, so the code returns
`(1 - exp 0)^1 = 0`, while the claimed formula value
`(1 - exp(-(2^32)/10))^1` is positive. -/
theorem claim_C6_counterexample :
    ¬ (bloom_filter_current_false_positive_rate bfC6 =
        (1 - Real.exp (-((bfC6.number_hashes : ℝ) *
          (bfC6.elements_added : ℝ)) / (bfC6.number_bits : ℝ))) ^
          bfC6.number_hashes) := by
  intro h
  have hL : bloom_filter_current_false_positive_rate bfC6 = 0 := by
    have ht : toInt32 (-((bfC6.number_hashes : ℤ) *
        (bfC6.elements_added : ℤ))) = 0 := by decide
    unfold bloom_filter_current_false_positive_rate
    rw [ht]
    norm_num
    decide
  have hR : (1 - Real.exp (-((bfC6.number_hashes : ℝ) *
      (bfC6.elements_added : ℝ)) / (bfC6.number_bits : ℝ))) ^
      bfC6.number_hashes = 1 - Real.exp (-(2 ^ 32 : ℝ) / 10) := by
    show (1 - Real.exp (-(((1 : ℕ) : ℝ) * ((2 ^ 32 : ℕ) : ℝ)) /
      (((10 : ℕ)) : ℝ))) ^ (1 : ℕ) = _
    push_cast
    norm_num
  rw [hL, hR] at h
  have hexp : Real.exp (-(2 ^ 32 : ℝ) / 10) < 1 :=
    Real.exp_lt_one_iff.mpr (by norm_num)
  linarith

/-- C6 as amended: the estimator equals `(1 - exp(-(k * n_added)/m))^k`
computed from the live fields whenever
`number_hashes * elements_added < 2^31`, i.e. as long as the intermediate
32-bit `int` does not overflow; for larger products the stored `int` is the
truncation `toInt32` and the result diverges from the formula (see the
counterexample). -/
theorem claim_C6_rate_amended (bf : BloomFilter)
    (h : bf.number_hashes * bf.elements_added < 2 ^ 31) :
    bloom_filter_current_false_positive_rate bf =
      (1 - Real.exp (-((bf.number_hashes : ℝ) * (bf.elements_added : ℝ)) /
        (bf.number_bits : ℝ))) ^ bf.number_hashes := by
  unfold bloom_filter_current_false_positive_rate
  have hcast : ((bf.number_hashes : ℤ) * (bf.elements_added : ℤ)) < 2 ^ 31 := by
    exact_mod_cast h
  have hnn : (0 : ℤ) ≤ (bf.number_hashes : ℤ) * (bf.elements_added : ℤ) := by
    positivity
  have ht : toInt32 (-((bf.number_hashes : ℤ) * (bf.elements_added : ℤ))) =
      -((bf.number_hashes : ℤ) * (bf.elements_added : ℤ)) := by
    unfold toInt32
    have hmod : (-((bf.number_hashes : ℤ) * (bf.elements_added : ℤ)) + 2 ^ 31) %
        2 ^ 32 = -((bf.number_hashes : ℤ) * (bf.elements_added : ℤ)) + 2 ^ 31 :=
      Int.emod_eq_of_lt (by omega) (by omega)
    rw [hmod]
    ring
  rw [ht]
  push_cast
  ring_nf

/-- Witness for the amended C6 at a concrete in-range filter. -/
theorem claim_C6_witness :
    bloom_filter_current_false_positive_rate bfTest =
      (1 - Real.exp (-((bfTest.number_hashes : ℝ) *
        (bfTest.elements_added : ℝ)) / (bfTest.number_bits : ℝ))) ^
        bfTest.number_hashes :=
  claim_C6_rate_amended bfTest (by decide)

end Bloom
